import Mathlib

/-!
Verification of the Kaleidoscope parser and AST-to-IR lowering engine.

The development shallowly embeds the final variant of each source file:
the parser (`parser.cpp`, functions `ParseNumberExpr` .. `ParseTopLevelExpr`),
the lowering engine (`ast.cpp`, the `codegen` methods of every AST node) and
the mutable compile-time environment they share (operator precedence table,
scope map `namedValues`, function-prototype registry, current module).

Numeric literals are modelled as rationals: every concrete value appearing in
the claims (1, 2, 3, 30, ...) is exactly representable as a double, so the
modelling is faithful on all inputs the theorems touch.  Emitted IR is
modelled as the builder's instruction trace in emission order; an evaluator
is provided for the straight-line (single basic block) fragment.
-/

namespace Kaleidoscope

/-- Association-list lookup (first match), modelling `std::map` lookup. -/
def alistGet {κ α : Type} [DecidableEq κ] : List (κ × α) → κ → Option α
  | [], _ => none
  | (k', v) :: t, k => if k' = k then some v else alistGet t k

/-- Association-list update-or-append, modelling `std::map::operator[] =`:
the existing entry for the key is overwritten in place, otherwise a new
entry is appended. -/
def alistSet {κ α : Type} [DecidableEq κ] : List (κ × α) → κ → α → List (κ × α)
  | [], k, v => [(k, v)]
  | (k', v') :: t, k, v => if k' = k then (k, v) :: t else (k', v') :: alistSet t k v

/-- Association-list removal of the entry for a key, modelling `std::map::erase`. -/
def alistErase {κ α : Type} [DecidableEq κ] : List (κ × α) → κ → List (κ × α)
  | [], _ => []
  | (k', v') :: t, k => if k' = k then t else (k', v') :: alistErase t k

/-!  ## Tokens

`lexer.h` (final variant): the lexer returns values in `[0-255]` for plain
characters and negative tags for keywords, identifiers and numbers.  The
identifier text and numeric value side channels are folded into the token. -/

inductive Token where
  | eof
  | kDef
  | kIdent (s : String)
  | kNum (v : ℚ)
  | kIf
  | kThen
  | kElse
  | kFor
  | kIn
  | kBinary
  | kUnary
  | kVar
  | ch (c : Nat)
deriving DecidableEq, Repr

/-- The parser's one-token lookahead: `currentToken` is the head of the
remaining token list; an exhausted stream keeps yielding `tok_eof`. -/
def cur (ts : List Token) : Token := ts.headD Token.eof

/-- `GetNextToken`: discard the current token. -/
def adv (ts : List Token) : List Token := ts.tail

/-- `isascii(currentToken)`: character tokens with code `≤ 127`; all the
negative keyword/identifier/number tags are not ascii. -/
def Token.isAscii : Token → Bool
  | Token.ch c => c ≤ 127
  | _ => false

/-!  ## AST

`ast.h` (final variant): Number, Variable, Unary, Binary, Var-block, If,
For and Call expression nodes.  A prototype carries its name, the argument
names, the operator flag and the declared binary precedence. -/

inductive Expr where
  | num (v : ℚ)
  | varRef (name : String)
  | unary (op : Nat) (operand : Expr)
  | bin (op : Nat) (l r : Expr)
  | call (callee : String) (args : List Expr)
  | ifE (c t e : Expr)
  | forE (varName : String) (start stop : Expr) (step : Option Expr) (body : Expr)
  | varE (binds : List (String × Option Expr)) (body : Expr)

/-- `PrototypeAST`: name, argument names, operator flag, binary precedence. -/
structure Proto where
  name : String
  args : List String
  isOperator : Bool
  precedence : Nat
deriving DecidableEq, Repr

/-- `PrototypeAST::isBinaryOp`. -/
def Proto.isBinaryOp (p : Proto) : Bool := p.isOperator && p.args.length == 2

/-- `PrototypeAST::isUnaryOp`. -/
def Proto.isUnaryOp (p : Proto) : Bool := p.isOperator && p.args.length == 1

/-- `PrototypeAST::getOperatorName`: the last character of the synthesized
name (`"binary"+symbol` or `"unary"+symbol`), as a character code. -/
def Proto.opName (p : Proto) : Nat := p.name.back.toNat

/-!  ## Operator precedence table

`std::map<char, int> binaryOpPrecedence`; a missing key reads as 0 via
`operator[]` (value-initialized), and `GetTokenPrecedence` maps any
non-positive stored precedence to the sentinel -1. -/

abbrev OpTable := List (Nat × Int)

/-- Table read, modelling `binaryOpPrecedence[currentToken]` (missing = 0). -/
def tblGet (tbl : OpTable) (c : Nat) : Int := (alistGet tbl c).getD 0

/-- `GetTokenPrecedence`: -1 for non-ascii tokens and for symbols whose
stored precedence is not positive. -/
def GetTokenPrecedence (tbl : OpTable) (t : Token) : Int :=
  match t with
  | Token.ch c =>
      if c ≤ 127 then
        let precedence := tblGet tbl c
        if precedence ≤ 0 then -1 else precedence
      else -1
  | _ => -1

/-- `AddBinaryOp` (startup installation of the built-in operators). -/
def AddBinaryOp (tbl : OpTable) (op : Nat) (precedence : Int) : OpTable :=
  alistSet tbl op precedence

/-- The startup table from `main`: `<` 10, `+` 20, `-` 20, `*` 40. -/
def builtinTable : OpTable :=
  AddBinaryOp (AddBinaryOp (AddBinaryOp (AddBinaryOp [] 60 10) 43 20) 45 20) 42 40

/-!  ## Parser

Fuel-indexed embedding of the mutually recursive parser from the final
`parser.cpp` variant.  Every function takes the remaining token list with
the current token at its head and returns the parse result (none = logged
failure returning nullptr) together with the rest of the stream. -/

mutual

/-- `ParseNumberExpr`. -/
def ParseNumberExpr : Nat → OpTable → List Token → Option Expr × List Token
  | 0, _, ts => (none, ts)
  | _ + 1, _, ts =>
      match cur ts with
      | Token.kNum v => (some (Expr.num v), adv ts)
      | _ => (none, ts)

/-- `ParseParenExpr`: `'(' expression ')'`. -/
def ParseParenExpr : Nat → OpTable → List Token → Option Expr × List Token
  | 0, _, ts => (none, ts)
  | fuel + 1, tbl, ts =>
      let ts := adv ts
      match ParseExpr fuel tbl ts with
      | (none, ts') => (none, ts')
      | (some innerExpr, ts') =>
          if cur ts' = Token.ch 41 then (some innerExpr, adv ts')
          else (none, ts')

/-- `ParseIdentifierExpr`: a bare variable reference, or a call with a
comma-separated argument list. -/
def ParseIdentifierExpr : Nat → OpTable → List Token → Option Expr × List Token
  | 0, _, ts => (none, ts)
  | fuel + 1, tbl, ts =>
      match cur ts with
      | Token.kIdent name =>
          let ts := adv ts
          if cur ts ≠ Token.ch 40 then (some (Expr.varRef name), ts)
          else
            let ts := adv ts
            if cur ts = Token.ch 41 then
              (some (Expr.call name []), adv ts)
            else
              match ParseCallArgs fuel tbl [] ts with
              | (none, ts') => (none, ts')
              | (some args, ts') => (some (Expr.call name args), adv ts')
      | _ => (none, ts)

/-- The argument-collecting loop inside `ParseIdentifierExpr`. -/
def ParseCallArgs : Nat → OpTable → List Expr → List Token →
    Option (List Expr) × List Token
  | 0, _, _, ts => (none, ts)
  | fuel + 1, tbl, acc, ts =>
      match ParseExpr fuel tbl ts with
      | (none, ts') => (none, ts')
      | (some arg, ts') =>
          if cur ts' = Token.ch 41 then (some (acc ++ [arg]), ts')
          else if cur ts' = Token.ch 44 then
            ParseCallArgs fuel tbl (acc ++ [arg]) (adv ts')
          else (none, ts')

/-- `ParseVarExpr`: `'var' identifier ('=' expr)? (',' identifier ('=' expr)?)*
'in' expr`. -/
def ParseVarExpr : Nat → OpTable → List Token → Option Expr × List Token
  | 0, _, ts => (none, ts)
  | fuel + 1, tbl, ts =>
      let ts := adv ts
      match cur ts with
      | Token.kIdent _ =>
          match ParseVarBindings fuel tbl [] ts with
          | (none, ts') => (none, ts')
          | (some varNames, ts') =>
              if cur ts' = Token.kIn then
                match ParseExpr fuel tbl (adv ts') with
                | (none, ts'') => (none, ts'')
                | (some body, ts'') => (some (Expr.varE varNames body), ts'')
              else (none, ts')
      | _ => (none, ts)

/-- The binding-collecting loop inside `ParseVarExpr`; entered with the
current token known to be an identifier. -/
def ParseVarBindings : Nat → OpTable → List (String × Option Expr) → List Token →
    Option (List (String × Option Expr)) × List Token
  | 0, _, _, ts => (none, ts)
  | fuel + 1, tbl, acc, ts =>
      match cur ts with
      | Token.kIdent name =>
          let ts := adv ts
          match
            (if cur ts = Token.ch 61 then
              match ParseExpr fuel tbl (adv ts) with
              | (none, ts') => (none, ts')
              | (some init, ts') => (some (some init), ts')
            else (some none, ts) :
              Option (Option Expr) × List Token) with
          | (none, ts') => (none, ts')
          | (some init, ts') =>
              let acc := acc ++ [(name, init)]
              if cur ts' = Token.ch 44 then
                match cur (adv ts') with
                | Token.kIdent _ => ParseVarBindings fuel tbl acc (adv ts')
                | _ => (none, adv ts')
              else (some acc, ts')
      | _ => (none, ts)

/-- `ParsePrimary`: dispatch on the current token tag. -/
def ParsePrimary : Nat → OpTable → List Token → Option Expr × List Token
  | 0, _, ts => (none, ts)
  | fuel + 1, tbl, ts =>
      match cur ts with
      | Token.kIdent _ => ParseIdentifierExpr fuel tbl ts
      | Token.kNum _ => ParseNumberExpr fuel tbl ts
      | Token.kIf => ParseIfExpr fuel tbl ts
      | Token.kFor => ParseForExpr fuel tbl ts
      | Token.kVar => ParseVarExpr fuel tbl ts
      | Token.ch 40 => ParseParenExpr fuel tbl ts
      | _ => (none, ts)

/-- `ParseUnary`: any ascii symbol other than `(` and `,` is greedily taken
as a prefix unary operator; everything else falls through to primary. -/
def ParseUnary : Nat → OpTable → List Token → Option Expr × List Token
  | 0, _, ts => (none, ts)
  | fuel + 1, tbl, ts =>
      match cur ts with
      | Token.ch c =>
          if c > 127 ∨ c = 40 ∨ c = 44 then ParsePrimary fuel tbl ts
          else
            match ParseUnary fuel tbl (adv ts) with
            | (none, ts') => (none, ts')
            | (some operand, ts') => (some (Expr.unary c operand), ts')
      | _ => ParsePrimary fuel tbl ts

/-- `ParseBinaryOperationRhs`: the precedence-climbing loop.  NOTE: the
nested climb recurses with `minPrecedence + 1` (this is what the source
does), not with `currentPrecedence + 1`. -/
def ParseBinaryOperationRhs : Nat → OpTable → Int → Expr → List Token →
    Option Expr × List Token
  | 0, _, _, _, ts => (none, ts)
  | fuel + 1, tbl, minPrecedence, lhs, ts =>
      let currentPrecedence := GetTokenPrecedence tbl (cur ts)
      if currentPrecedence < minPrecedence then (some lhs, ts)
      else
        match cur ts with
        | Token.ch binOp =>
            let ts := adv ts
            match ParseUnary fuel tbl ts with
            | (none, ts') => (none, ts')
            | (some rhs, ts') =>
                let nextPrecedence := GetTokenPrecedence tbl (cur ts')
                if currentPrecedence < nextPrecedence then
                  match ParseBinaryOperationRhs fuel tbl (minPrecedence + 1) rhs ts' with
                  | (none, ts'') => (none, ts'')
                  | (some rhs', ts'') =>
                      ParseBinaryOperationRhs fuel tbl minPrecedence
                        (Expr.bin binOp lhs rhs') ts''
                else
                  ParseBinaryOperationRhs fuel tbl minPrecedence
                    (Expr.bin binOp lhs rhs) ts'
        | _ => (none, ts)

/-- `ParseExpr`: a unary expression followed by the binary-operator climb
starting at minimum precedence 0. -/
def ParseExpr : Nat → OpTable → List Token → Option Expr × List Token
  | 0, _, ts => (none, ts)
  | fuel + 1, tbl, ts =>
      match ParseUnary fuel tbl ts with
      | (none, ts') => (none, ts')
      | (some lhs, ts') => ParseBinaryOperationRhs fuel tbl 0 lhs ts'

/-- `ParseIfExpr`: `'if' expr 'then' expr 'else' expr`, all clauses
mandatory. -/
def ParseIfExpr : Nat → OpTable → List Token → Option Expr × List Token
  | 0, _, ts => (none, ts)
  | fuel + 1, tbl, ts =>
      let ts := adv ts
      match ParseExpr fuel tbl ts with
      | (none, ts') => (none, ts')
      | (some c, ts') =>
          if cur ts' = Token.kThen then
            match ParseExpr fuel tbl (adv ts') with
            | (none, ts'') => (none, ts'')
            | (some thenExpr, ts'') =>
                if cur ts'' = Token.kElse then
                  match ParseExpr fuel tbl (adv ts'') with
                  | (none, ts₃) => (none, ts₃)
                  | (some elseExpr, ts₃) =>
                      (some (Expr.ifE c thenExpr elseExpr), ts₃)
                else (none, ts'')
          else (none, ts')

/-- `ParseForExpr`: `'for' ident '=' expr ',' expr (',' expr)? 'in' expr`. -/
def ParseForExpr : Nat → OpTable → List Token → Option Expr × List Token
  | 0, _, ts => (none, ts)
  | fuel + 1, tbl, ts =>
      let ts := adv ts
      match cur ts with
      | Token.kIdent varName =>
          let ts := adv ts
          if cur ts = Token.ch 61 then
            match ParseExpr fuel tbl (adv ts) with
            | (none, ts') => (none, ts')
            | (some initialVal, ts') =>
                if cur ts' = Token.ch 44 then
                  match ParseExpr fuel tbl (adv ts') with
                  | (none, ts'') => (none, ts'')
                  | (some endValue, ts'') =>
                      match
                        (if cur ts'' = Token.ch 44 then
                          match ParseExpr fuel tbl (adv ts'') with
                          | (none, ts₃) => (none, ts₃)
                          | (some inc, ts₃) => (some (some inc), ts₃)
                        else (some none, ts'') :
                          Option (Option Expr) × List Token) with
                      | (none, ts₃) => (none, ts₃)
                      | (some increment, ts₃) =>
                          if cur ts₃ = Token.kIn then
                            match ParseExpr fuel tbl (adv ts₃) with
                            | (none, ts₄) => (none, ts₄)
                            | (some body, ts₄) =>
                                (some (Expr.forE varName initialVal endValue
                                  increment body), ts₄)
                          else (none, ts₃)
                else (none, ts')
          else (none, ts)
      | _ => (none, ts)

end

/-- The maximal run of identifier tokens read by `while (GetNextToken() ==
tok_identifier)` inside `ParsePrototype`; the stream is left positioned on
the first non-identifier token. -/
def collectArgNames : List Token → List String × List Token
  | Token.kIdent s :: rest =>
      let (more, ts') := collectArgNames rest
      (s :: more, ts')
  | ts => ([], ts)

/-- `ParsePrototype`: plain `name(args…)`, `unary SYM (arg)` or
`binary SYM precedence? (arg1 arg2)`; the default declared binary
precedence is 30 and an explicit literal must lie in `[1,100]`. -/
def ParsePrototype (ts : List Token) : Option Proto × List Token :=
  match
    (match cur ts with
    | Token.kIdent s => (some (s, 0, (30 : ℚ)), adv ts)
    | Token.kUnary =>
        let ts := adv ts
        match cur ts with
        | Token.ch c =>
            if c ≤ 127 then (some ("unary".push (Char.ofNat c), 1, (30 : ℚ)), adv ts)
            else (none, ts)
        | _ => (none, ts)
    | Token.kBinary =>
        let ts := adv ts
        match cur ts with
        | Token.ch c =>
            if c ≤ 127 then
              let name := "binary".push (Char.ofNat c)
              let ts := adv ts
              match cur ts with
              | Token.kNum v =>
                  if v < 1 ∨ v > 100 then (none, ts)
                  else (some (name, 2, v), adv ts)
              | _ => (some (name, 2, (30 : ℚ)), ts)
            else (none, ts)
        | _ => (none, ts)
    | _ => (none, ts) :
      Option (String × Nat × ℚ) × List Token) with
  | (none, ts') => (none, ts')
  | (some (name, kind, binaryPrecedence), ts') =>
      if cur ts' = Token.ch 40 then
        let (argNames, ts'') := collectArgNames (adv ts')
        if cur ts'' = Token.ch 41 then
          let ts₃ := adv ts''
          if kind ≠ 0 ∧ argNames.length ≠ kind then (none, ts₃)
          else
            (some { name := name, args := argNames, isOperator := kind ≠ 0,
                    precedence := binaryPrecedence.floor.toNat }, ts₃)
        else (none, ts'')
      else (none, ts')

/-- `ParseFunctionDefinition`: `'def' prototype expression`. -/
def ParseFunctionDefinition (fuel : Nat) (tbl : OpTable) (ts : List Token) :
    Option (Proto × Expr) × List Token :=
  let ts := adv ts
  match ParsePrototype ts with
  | (none, ts') => (none, ts')
  | (some prototype, ts') =>
      match ParseExpr fuel tbl ts' with
      | (none, ts'') => (none, ts'')
      | (some body, ts'') => (some (prototype, body), ts'')

/-- `ParseTopLevelExpr`: a bare expression wrapped in the synthetic
zero-argument `__anon_expr` prototype. -/
def ParseTopLevelExpr (fuel : Nat) (tbl : OpTable) (ts : List Token) :
    Option (Proto × Expr) × List Token :=
  match ParseExpr fuel tbl ts with
  | (none, ts') => (none, ts')
  | (some e, ts') =>
      (some ({ name := "__anon_expr", args := [], isOperator := false,
               precedence := 0 }, e), ts')

/-- The precedence-climbing loop as the specification describes it: when the
next pending operator binds strictly tighter, recurse with a threshold of
the *current operator's* precedence plus one.  This differs from
`ParseBinaryOperationRhs` (the source) in exactly that one threshold and is
used to compare the two behaviours. -/
def SpecBinaryOperationRhs : Nat → OpTable → Int → Expr → List Token →
    Option Expr × List Token
  | 0, _, _, _, ts => (none, ts)
  | fuel + 1, tbl, minPrecedence, lhs, ts =>
      let currentPrecedence := GetTokenPrecedence tbl (cur ts)
      if currentPrecedence < minPrecedence then (some lhs, ts)
      else
        match cur ts with
        | Token.ch binOp =>
            let ts := adv ts
            match ParseUnary fuel tbl ts with
            | (none, ts') => (none, ts')
            | (some rhs, ts') =>
                let nextPrecedence := GetTokenPrecedence tbl (cur ts')
                if currentPrecedence < nextPrecedence then
                  match SpecBinaryOperationRhs fuel tbl (currentPrecedence + 1) rhs ts' with
                  | (none, ts'') => (none, ts'')
                  | (some rhs', ts'') =>
                      SpecBinaryOperationRhs fuel tbl minPrecedence
                        (Expr.bin binOp lhs rhs') ts''
                else
                  SpecBinaryOperationRhs fuel tbl minPrecedence
                    (Expr.bin binOp lhs rhs) ts'
        | _ => (none, ts)

/-- `ParseExpr` built on the specification's climb. -/
def SpecParseExpr (fuel : Nat) (tbl : OpTable) (ts : List Token) :
    Option Expr × List Token :=
  match fuel with
  | 0 => (none, ts)
  | fuel + 1 =>
      match ParseUnary fuel tbl ts with
      | (none, ts') => (none, ts')
      | (some lhs, ts') => SpecBinaryOperationRhs fuel tbl 0 lhs ts'

/-!  ## Lowering engine (`ast.cpp`)

IR values are floating-point constants, incoming function arguments, or the
results of previously emitted instructions (identified by a fresh id).
Emitted IR is recorded as the builder's instruction trace in emission
order; basic-block creation and insert-point moves appear as labels. -/

inductive Value where
  | constF (v : ℚ)
  | argv (i : Nat)
  | reg (r : Nat)
deriving DecidableEq, Repr

inductive Instr where
  | alloca (slot : Nat) (name : String)
  | store (v : Value) (slot : Nat)
  | load (r : Nat) (slot : Nat)
  | fadd (r : Nat) (a b : Value)
  | fsub (r : Nat) (a b : Value)
  | fmul (r : Nat) (a b : Value)
  | fcmpULT (r : Nat) (a b : Value)
  | uitofp (r : Nat) (a : Value)
  | fcmpONE (r : Nat) (a b : Value)
  | callI (r : Nat) (callee : String) (args : List Value)
  | brI (target : String)
  | condbr (c : Value) (tTgt fTgt : String)
  | phi (r : Nat) (incoming : List (Value × String))
  | label (name : String)
  | ret (v : Value)
deriving DecidableEq, Repr

/-- A function present in the current module: its name and the names of its
arguments (`llvm::Function` as far as the core observes it). -/
abbrev Fn := String × List String

/-- The mutable compile-time environment: the current module's functions,
the function-prototype registry `functionPrototypes`, the operator table
`binaryOpPrecedence`, the scope map `namedValues`, the diagnostic channel,
the builder's instruction trace and the fresh-id counters. -/
structure CGState where
  mdl : List (String × List String)
  protos : List (String × Proto)
  opPrec : OpTable
  namedValues : List (String × Nat)
  diags : List String
  instrs : List Instr
  nextSlot : Nat
  nextReg : Nat
deriving DecidableEq, Repr

/-- The outcome of a lowering step: a value together with the updated
environment, or a hard crash (a failed `assert` or undefined behaviour).
A recoverable failure (`LogErrorV` returning `nullptr`) is an `ok none`
at result type `Option Value`. -/
inductive CRes (α : Type) where
  | ok (a : α) (s : CGState)
  | crash (msg : String) (s : CGState)
deriving DecidableEq, Repr

/-- The environment carried by a result (also defined at a crash, which
records the state at the crash point). -/
def CRes.st {α : Type} : CRes α → CGState
  | CRes.ok _ s => s
  | CRes.crash _ s => s

/-- The value of a lowering result, `none` for both recoverable failure and
crash. -/
def CRes.val {α : Type} : CRes (Option α) → Option α
  | CRes.ok a _ => a
  | CRes.crash _ _ => none

def CRes.isCrash {α : Type} : CRes α → Bool
  | CRes.ok _ _ => false
  | CRes.crash _ _ => true

/-- Append an instruction to the builder's trace. -/
def emit (i : Instr) (s : CGState) : CGState := { s with instrs := s.instrs ++ [i] }

/-- `LogErrorV`: write one diagnostic line and (at the call sites) return
the failure value. -/
def logErrorV (msg : String) (s : CGState) : CGState :=
  { s with diags := s.diags ++ [msg] }

/-- `CreateEntryBlockAlloca`: allocate a fresh double-sized stack slot in
the entry block of the current function. -/
def entryBlockAlloca (varName : String) (s : CGState) : Nat × CGState :=
  (s.nextSlot, emit (Instr.alloca s.nextSlot varName) { s with nextSlot := s.nextSlot + 1 })

/-- A fresh instruction-result id. -/
def freshReg (s : CGState) : Nat × CGState := (s.nextReg, { s with nextReg := s.nextReg + 1 })

/-- `PrototypeAST::codegen`: declare a function with one double parameter
per argument name and attach the parameter names. -/
def protoCodegen (p : Proto) (s : CGState) : Fn × CGState :=
  ((p.name, p.args), { s with mdl := s.mdl ++ [(p.name, p.args)] })

/-- `getFunction`: resolve a name in the current module first, then fall
back to the prototype registry (emitting a fresh declaration); `nullptr`
when both fail. -/
def getFunction (name : String) (s : CGState) : Option Fn × CGState :=
  match alistGet s.mdl name with
  | some args => (some (name, args), s)
  | none =>
      match alistGet s.protos name with
      | some p => let (fn, s') := protoCodegen p s; (some fn, s')
      | none => (none, s)

/-- Modelled from the spec (§4.2 Var/in, §5): after the body, restore every
shadowed scope entry — or remove the name when it had no prior binding — in
reverse binding order (push/pop discipline). -/
def restoreSaved (saved : List (String × Option Nat)) (nv : List (String × Nat)) :
    List (String × Nat) :=
  saved.foldr
    (fun p acc =>
      match p.2 with
      | some old => alistSet acc p.1 old
      | none => alistErase acc p.1)
    nv

mutual

/-- The `codegen` methods of the expression AST nodes (`ast.cpp`), with the
`var`/`in` case modelled from the specification (see `lowerVarBindings`). -/
def codegenExpr : Expr → CGState → CRes (Option Value)
  | Expr.num v, s => CRes.ok (some (Value.constF v)) s
  | Expr.varRef name, s =>
      -- NOTE (faithful to the source): on a missing scope entry the code
      -- logs the diagnostic but does not return; it goes on to call
      -- `builder.CreateLoad` on the null storage pointer.
      (match alistGet s.namedValues name with
      | none =>
          let s := logErrorV "Unknown variable name." s
          CRes.crash "CreateLoad on null storage location" s
      | some slot =>
          let (r, s) := freshReg s
          CRes.ok (some (Value.reg r)) (emit (Instr.load r slot) s))
  | Expr.unary op operand, s =>
      (match codegenExpr operand s with
      | CRes.crash m s' => CRes.crash m s'
      | CRes.ok none s' => CRes.ok none s'
      | CRes.ok (some operandV) s' =>
          match getFunction ("unary".push (Char.ofNat op)) s' with
          | (none, s'') => CRes.ok none (logErrorV "Unknown unary operator" s'')
          | (some fn, s'') =>
              let (r, s₃) := freshReg s''
              CRes.ok (some (Value.reg r)) (emit (Instr.callI r fn.1 [operandV]) s₃))
  | Expr.bin op l r, s =>
      -- Both operands are lowered before either null check.
      (match codegenExpr l s with
      | CRes.crash m s' => CRes.crash m s'
      | CRes.ok left s' =>
          match codegenExpr r s' with
          | CRes.crash m s'' => CRes.crash m s''
          | CRes.ok right s'' =>
              match left, right with
              | some lv, some rv =>
                  if op = 43 then
                    let (r, s₃) := freshReg s''
                    CRes.ok (some (Value.reg r)) (emit (Instr.fadd r lv rv) s₃)
                  else if op = 45 then
                    let (r, s₃) := freshReg s''
                    CRes.ok (some (Value.reg r)) (emit (Instr.fsub r lv rv) s₃)
                  else if op = 42 then
                    let (r, s₃) := freshReg s''
                    CRes.ok (some (Value.reg r)) (emit (Instr.fmul r lv rv) s₃)
                  else if op = 60 then
                    let (r₁, s₃) := freshReg s''
                    let s₄ := emit (Instr.fcmpULT r₁ lv rv) s₃
                    let (r₂, s₅) := freshReg s₄
                    CRes.ok (some (Value.reg r₂)) (emit (Instr.uitofp r₂ (Value.reg r₁)) s₅)
                  else
                    -- user-defined operator: `assert(function && "binary operator not found!")`
                    match getFunction ("binary".push (Char.ofNat op)) s'' with
                    | (none, s₃) => CRes.crash "binary operator not found!" s₃
                    | (some fn, s₃) =>
                        let (r, s₄) := freshReg s₃
                        CRes.ok (some (Value.reg r))
                          (emit (Instr.callI r fn.1 [lv, rv]) s₄)
              | _, _ => CRes.ok none s'')
  | Expr.ifE c t e, s =>
      (match codegenExpr c s with
      | CRes.crash m s' => CRes.crash m s'
      | CRes.ok none s' => CRes.ok none s'
      | CRes.ok (some condV) s' =>
          let (rc, s₁) := freshReg s'
          let s₂ := emit (Instr.fcmpONE rc condV (Value.constF 0)) s₁
          let s₃ := emit (Instr.condbr (Value.reg rc) "then" "else") s₂
          let s₄ := emit (Instr.label "then") s₃
          match codegenExpr t s₄ with
          | CRes.crash m s₅ => CRes.crash m s₅
          | CRes.ok none s₅ => CRes.ok none s₅
          | CRes.ok (some thenV) s₅ =>
              let s₆ := emit (Instr.label "else") (emit (Instr.brI "ifcont") s₅)
              match codegenExpr e s₆ with
              | CRes.crash m s₇ => CRes.crash m s₇
              | CRes.ok none s₇ => CRes.ok none s₇
              | CRes.ok (some elseV) s₇ =>
                  let s₈ := emit (Instr.label "ifcont") (emit (Instr.brI "ifcont") s₇)
                  let (rp, s₉) := freshReg s₈
                  CRes.ok (some (Value.reg rp))
                    (emit (Instr.phi rp [(thenV, "then"), (elseV, "else")]) s₉))
  | Expr.forE varName start stop step body, s =>
      (let (slot, s₀) := entryBlockAlloca varName s
      match codegenExpr start s₀ with
      | CRes.crash m s₁ => CRes.crash m s₁
      | CRes.ok none s₁ => CRes.ok none s₁
      | CRes.ok (some startV) s₁ =>
          let s₂ := emit (Instr.store startV slot) s₁
          let s₃ := emit (Instr.brI "loop") s₂
          let oldVal := alistGet s₃.namedValues varName
          let s₄ := { s₃ with namedValues := alistSet s₃.namedValues varName slot }
          let s₅ := emit (Instr.label "loop") s₄
          match codegenExpr body s₅ with
          | CRes.crash m s₆ => CRes.crash m s₆
          | CRes.ok none s₆ => CRes.ok none s₆      -- early exit: no restore
          | CRes.ok (some _) s₆ =>
              match codegenStep step s₆ with
              | CRes.crash m s₇ => CRes.crash m s₇
              | CRes.ok none s₇ => CRes.ok none s₇  -- early exit: no restore
              | CRes.ok (some stepV) s₇ =>
                  match codegenExpr stop s₇ with
                  | CRes.crash m s₈ => CRes.crash m s₈
                  | CRes.ok none s₈ => CRes.ok none s₈  -- early exit: no restore
                  | CRes.ok (some endV) s₈ =>
                      let (rCur, s₉) := freshReg s₈
                      let s₁₀ := emit (Instr.load rCur slot) s₉
                      let (rNext, s₁₁) := freshReg s₁₀
                      let s₁₂ := emit (Instr.fadd rNext (Value.reg rCur) stepV) s₁₁
                      let s₁₃ := emit (Instr.store (Value.reg rNext) slot) s₁₂
                      let (rEnd, s₁₄) := freshReg s₁₃
                      let s₁₅ := emit (Instr.fcmpONE rEnd endV (Value.constF 0)) s₁₄
                      let s₁₆ := emit (Instr.condbr (Value.reg rEnd) "loop" "afterloop") s₁₅
                      let s₁₇ := emit (Instr.label "afterloop") s₁₆
                      let s₁₈ :=
                        match oldVal with
                        | some old =>
                            { s₁₇ with namedValues := alistSet s₁₇.namedValues varName old }
                        | none =>
                            { s₁₇ with namedValues := alistErase s₁₇.namedValues varName }
                      CRes.ok (some (Value.constF 0)) s₁₈)
  | Expr.call callee args, s =>
      (match getFunction callee s with
      | (none, s') => CRes.ok none (logErrorV "Unknown function referenced" s')
      | (some fn, s') =>
          if fn.2.length ≠ args.length then
            CRes.ok none (logErrorV "Incorrect number of arguments passed" s')
          else
            match codegenArgs args s' with
            | CRes.crash m s'' => CRes.crash m s''
            | CRes.ok none s'' => CRes.ok none s''
            | CRes.ok (some argVs) s'' =>
                let (r, s₃) := freshReg s''
                CRes.ok (some (Value.reg r)) (emit (Instr.callI r fn.1 argVs) s₃))
  | Expr.varE binds body, s =>
      (match lowerVarBindings binds s with
      | CRes.crash m s' => CRes.crash m s'
      | CRes.ok none s' => CRes.ok none s'
      | CRes.ok (some saved) s' =>
          match codegenExpr body s' with
          | CRes.crash m s'' => CRes.crash m s''
          | CRes.ok none s'' => CRes.ok none s''
          | CRes.ok (some bodyV) s'' =>
              CRes.ok (some bodyV)
                { s'' with namedValues := restoreSaved saved s''.namedValues })

/-- The step value of `ForExprAST::codegen`: the lowered `Step` expression
when present, else the constant `1.0`. -/
def codegenStep : Option Expr → CGState → CRes (Option Value)
  | some stepE, s => codegenExpr stepE s
  | none, s => CRes.ok (some (Value.constF 1)) s

/-- One binding's initializer inside the var/in lowering (modelled from the
spec, see `lowerVarBindings`): lower the initializer and store it into the
binding's slot; an absent initializer gets no explicit store. -/
def codegenInit : Option Expr → Nat → CGState → CRes (Option Unit)
  | some initE, slot, s =>
      (match codegenExpr initE s with
      | CRes.crash m s₁ => CRes.crash m s₁
      | CRes.ok none s₁ => CRes.ok none s₁
      | CRes.ok (some initV) s₁ =>
          CRes.ok (some Unit.unit) (emit (Instr.store initV slot) s₁))
  | none, _, s => CRes.ok (some Unit.unit) s

/-- The argument-lowering loop of `CallExprAST::codegen`: arguments are
lowered left to right, aborting on the first failure. -/
def codegenArgs : List Expr → CGState → CRes (Option (List Value))
  | [], s => CRes.ok (some []) s
  | e :: rest, s =>
      (match codegenExpr e s with
      | CRes.crash m s' => CRes.crash m s'
      | CRes.ok none s' => CRes.ok none s'
      | CRes.ok (some v) s' =>
          match codegenArgs rest s' with
          | CRes.crash m s'' => CRes.crash m s''
          | CRes.ok none s'' => CRes.ok none s''
          | CRes.ok (some vs) s'' => CRes.ok (some (v :: vs)) s'')

/-- Modelled from the spec: `VarExprAST::codegen` is declared in `ast.h`
but its definition is not among the provided sources.  Spec §4.2 (Var/in):
"for each binding in order, allocates storage in the entry region, lowers
its initializer expression (or substitutes a default if absent) and stores
it, and inserts/shadows the Scope map entry immediately — later bindings in
the same block may reference earlier ones"; per §4.1 an absent initializer
gets no explicit store.  The prior binding (or absence) of each name is
saved so that the node can restore it after the body, per §5's push/pop
discipline (restoration in reverse binding order). -/
def lowerVarBindings : List (String × Option Expr) → CGState →
    CRes (Option (List (String × Option Nat)))
  | [], s => CRes.ok (some []) s
  | (name, init) :: rest, s =>
      (let oldBinding := alistGet s.namedValues name
      let (slot, s₀) := entryBlockAlloca name s
      match codegenInit init slot s₀ with
      | CRes.crash m s₁ => CRes.crash m s₁
      | CRes.ok none s₁ => CRes.ok none s₁
      | CRes.ok (some _) s₁ =>
          let s₂ := { s₁ with namedValues := alistSet s₁.namedValues name slot }
          match lowerVarBindings rest s₂ with
          | CRes.crash m s₃ => CRes.crash m s₃
          | CRes.ok none s₃ => CRes.ok none s₃
          | CRes.ok (some savedRest) s₃ =>
              CRes.ok (some ((name, oldBinding) :: savedRest)) s₃)

end

/-- The per-parameter prologue of `FunctionAST::codegen`: allocate a slot
for each incoming argument, store the argument value and register the
scope-map entry. -/
def allocArgs : List String → Nat → CGState → CGState
  | [], _, s => s
  | a :: rest, i, s =>
      let (slot, s₀) := entryBlockAlloca a s
      let s₁ := emit (Instr.store (Value.argv i) slot) s₀
      let s₂ := { s₁ with namedValues := alistSet s₁.namedValues a slot }
      allocArgs rest (i + 1) s₂

/-- `FunctionAST::codegen`: register the prototype, resolve the function,
install a binary operator's precedence, open the entry block, wholesale
replace the scope map with the parameters, lower the body; on success emit
the return (verification and the optimization pipeline are outside the
model); on failure erase the function from the module. -/
def codegenFunction (proto : Proto) (body : Expr) (s : CGState) : CRes (Option Fn) :=
  let s := { s with protos := alistSet s.protos proto.name proto }
  match getFunction proto.name s with
  | (none, s₁) => CRes.ok none s₁
  | (some fn, s₁) =>
      let s₂ :=
        if proto.isBinaryOp then
          { s₁ with opPrec := alistSet s₁.opPrec proto.opName proto.precedence }
        else s₁
      let s₃ := emit (Instr.label "entry") s₂
      let s₄ := { s₃ with namedValues := [] }
      let s₅ := allocArgs fn.2 0 s₄
      match codegenExpr body s₅ with
      | CRes.crash m s₆ => CRes.crash m s₆
      | CRes.ok none s₆ =>
          CRes.ok none { s₆ with mdl := alistErase s₆.mdl proto.name }
      | CRes.ok (some retV) s₆ =>
          CRes.ok (some fn) (emit (Instr.ret retV) s₆)

/-- The process state right after `main` installed the built-in operators
and `InitializeModuleAndPassManager` created the first (empty) module. -/
def startupState : CGState :=
  { mdl := [], protos := [], opPrec := builtinTable, namedValues := [],
    diags := [], instrs := [], nextSlot := 0, nextReg := 0 }

/-- `InitializeModuleAndPassManager` after a unit is handed to the JIT: a
fresh module (and builder trace); the registry, operator table and other
process-wide state persist. -/
def rotated (s : CGState) : CGState := { s with mdl := [], instrs := [] }

/-!  ## Straight-line evaluation of the emitted trace

Evaluation semantics for the branch-free fragment of the emitted IR (a
single basic block).  Memory maps storage slots to doubles, the register
file maps instruction results to doubles; evaluation yields the value of
the executed `ret`.  Any control-flow instruction is outside the fragment. -/

def evalValue (regs : List (Nat × ℚ)) : Value → Option ℚ
  | Value.constF v => some v
  | Value.argv _ => none
  | Value.reg r => alistGet regs r

def evalTrace : List Instr → List (Nat × ℚ) → List (Nat × ℚ) → Option ℚ
  | [], _, _ => none
  | i :: rest, mem, regs =>
      match i with
      | Instr.alloca _ _ => evalTrace rest mem regs
      | Instr.label _ => evalTrace rest mem regs
      | Instr.store v slot =>
          (match evalValue regs v with
          | some x => evalTrace rest (alistSet mem slot x) regs
          | none => none)
      | Instr.load r slot =>
          (match alistGet mem slot with
          | some x => evalTrace rest mem (alistSet regs r x)
          | none => none)
      | Instr.fadd r a b =>
          (match evalValue regs a, evalValue regs b with
          | some x, some y => evalTrace rest mem (alistSet regs r (x + y))
          | _, _ => none)
      | Instr.fsub r a b =>
          (match evalValue regs a, evalValue regs b with
          | some x, some y => evalTrace rest mem (alistSet regs r (x - y))
          | _, _ => none)
      | Instr.fmul r a b =>
          (match evalValue regs a, evalValue regs b with
          | some x, some y => evalTrace rest mem (alistSet regs r (x * y))
          | _, _ => none)
      | Instr.fcmpULT r a b =>
          (match evalValue regs a, evalValue regs b with
          | some x, some y => evalTrace rest mem (alistSet regs r (if x < y then 1 else 0))
          | _, _ => none)
      | Instr.uitofp r a =>
          (match evalValue regs a with
          | some x => evalTrace rest mem (alistSet regs r x)
          | none => none)
      | Instr.fcmpONE r a b =>
          (match evalValue regs a, evalValue regs b with
          | some x, some y => evalTrace rest mem (alistSet regs r (if x ≠ y then 1 else 0))
          | _, _ => none)
      | Instr.ret v => evalValue regs v
      | Instr.callI _ _ _ => none
      | Instr.brI _ => none
      | Instr.condbr _ _ _ => none
      | Instr.phi _ _ => none

/-- The keys of an association list. -/
def keys {κ α : Type} (m : List (κ × α)) : List κ := m.map Prod.fst


/-!  ## Invariant vocabulary

The relations the lowering invariants are expressed in. -/

/-!  ## The module-extension relation

Lowering only grows the current module, and only with names that were
absent when they were added; key uniqueness is preserved and resolutions of
already-present names are stable. -/

def modExt (m m' : List (String × List String)) : Prop :=
  (∃ δ, m' = m ++ δ) ∧
  (∀ k v, alistGet m k = some v → alistGet m' k = some v) ∧
  ((keys m).Nodup → (keys m').Nodup)

def Kept (s s' : CGState) : Prop :=
  s'.opPrec = s.opPrec ∧ s'.protos = s.protos ∧ modExt s.mdl s'.mdl

/-- Well-formedness of the prototype registry: `functionPrototypes` is only
ever written at key `proto->getName()`, so every entry's name matches its
key; this holds in every reachable state and is preserved by lowering. -/
def RegOK (s : CGState) : Prop := ∀ k p, alistGet s.protos k = some p → p.name = k

def ExprOK (e : Expr) : Prop :=
  ∀ s r s', codegenExpr e s = CRes.ok r s' → RegOK s →
    Kept s s' ∧ (r.isSome = true → s'.namedValues = s.namedValues)

def StepOK (step : Option Expr) : Prop :=
  ∀ s r s', codegenStep step s = CRes.ok r s' → RegOK s →
    Kept s s' ∧ (r.isSome = true → s'.namedValues = s.namedValues)

def InitOK (init : Option Expr) : Prop :=
  ∀ slot s r s', codegenInit init slot s = CRes.ok r s' → RegOK s →
    Kept s s' ∧ (r.isSome = true → s'.namedValues = s.namedValues)

def ArgsOK (es : List Expr) : Prop :=
  ∀ s r s', codegenArgs es s = CRes.ok r s' → RegOK s →
    Kept s s' ∧ (r.isSome = true → s'.namedValues = s.namedValues)

def BindsOK (bs : List (String × Option Expr)) : Prop :=
  ∀ s r s', lowerVarBindings bs s = CRes.ok r s' → RegOK s →
    Kept s s' ∧
      ∀ saved, r = some saved → restoreSaved saved s'.namedValues = s.namedValues

open Token Expr

/-!  ## Concrete inputs for the claims -/

/-- Token stream of `"1-2-3"`. -/
def toksMinus : List Token := [kNum 1, ch 45, kNum 2, ch 45, kNum 3]

/-- Token stream of `"1+2*3<4"`. -/
def toksMixed : List Token := [kNum 1, ch 43, kNum 2, ch 42, kNum 3, ch 60, kNum 4]

/-- Token stream of `"var x = 1 in (var x = 2 in x) + x"`. -/
def shadowToks : List Token :=
  [kVar, kIdent "x", ch 61, kNum 1, kIn,
   ch 40, kVar, kIdent "x", ch 61, kNum 2, kIn, kIdent "x", ch 41, ch 43, kIdent "x"]

/-- The shadowing example, parsed as a top-level expression and lowered from
the startup state. -/
def shadowLower : CRes (Option Fn) :=
  match (ParseTopLevelExpr 32 builtinTable shadowToks).1 with
  | some (p, e) => codegenFunction p e startupState
  | none => CRes.crash "parse failure" startupState

/-- `var a = 1, b = 2 in 3`, lowered directly. -/
def varOrder : CRes (Option Value) :=
  codegenExpr (varE [("a", some (num 1)), ("b", some (num 2))] (num 3)) startupState

/-- A for-loop whose body fails to lower (call to an unknown function). -/
def forLeak : CRes (Option Value) :=
  codegenExpr (forE "i" (num 1) (num 2) none (call "g" [])) startupState

/-- A for-loop that lowers successfully. -/
def forOK : CRes (Option Value) :=
  codegenExpr (forE "i" (num 1) (num 2) none (num 3)) startupState

/-- The prototype `binary | (a b)` with the default precedence 30. -/
def protoBar : Proto :=
  { name := "binary|", args := ["a", "b"], isOperator := true, precedence := 30 }

/-- Lowering of `def binary| (a b) nosuch()`: the body fails (unknown
function). -/
def failingDef : CRes (Option Fn) :=
  codegenFunction protoBar (call "nosuch" []) startupState

/-- Lowering of `def binary| 30-by-default (a b) 1`: the body succeeds. -/
def okBarDef : CRes (Option Fn) :=
  codegenFunction protoBar (num 1) startupState

/-- A unary application whose operator function resolves nowhere. -/
def unaryMissing : CRes (Option Value) :=
  codegenExpr (unary 33 (num 1)) startupState

/-- A non-built-in binary application whose operator function resolves
nowhere. -/
def binMissing : CRes (Option Value) :=
  codegenExpr (bin 124 (num 1) (num 2)) startupState

/-- The plain prototype `f()`. -/
def protoF : Proto := { name := "f", args := [], isOperator := false, precedence := 0 }

/-- First definition of `f`. -/
def defFst (v : ℚ) : CRes (Option Fn) := codegenFunction protoF (num v) startupState

/-- Second definition of `f`, lowered after the driver handed the first
unit to the JIT and created a fresh module. -/
def defSnd (v₁ v₂ : ℚ) : CRes (Option Fn) :=
  codegenFunction protoF (num v₂) (rotated (defFst v₁).st)

/-- Token stream of the prototype `binary | (a b)` (no precedence literal). -/
def protoToksDefault : List Token :=
  [kBinary, ch 124, ch 40, kIdent "a", kIdent "b", ch 41]

/-!  ## Association-list lemmas -/

theorem alistGet_set_self {κ α : Type} [DecidableEq κ] (m : List (κ × α)) (k : κ) (v : α) :
    alistGet (alistSet m k v) k = some v := by
  induction m with
  | nil => simp [alistGet, alistSet]
  | cons h t ih =>
      obtain ⟨k', v'⟩ := h
      by_cases hk : k' = k
      · subst hk; simp [alistGet, alistSet]
      · simp [alistGet, alistSet, hk, ih]

theorem alistSet_set_cancel {κ α : Type} [DecidableEq κ] {m : List (κ × α)} {k : κ} {v₀ : α}
    (h : alistGet m k = some v₀) (v₁ : α) : alistSet (alistSet m k v₁) k v₀ = m := by
  induction m with
  | nil => simp [alistGet] at h
  | cons p t ih =>
      obtain ⟨k', v'⟩ := p
      by_cases hk : k' = k
      · subst hk
        simp [alistGet] at h
        subst h
        simp [alistSet]
      · simp [alistGet, hk] at h
        simp [alistSet, hk, ih h]

theorem alistErase_set_cancel {κ α : Type} [DecidableEq κ] {m : List (κ × α)} {k : κ}
    (h : alistGet m k = none) (v : α) : alistErase (alistSet m k v) k = m := by
  induction m with
  | nil => simp [alistSet, alistErase]
  | cons p t ih =>
      obtain ⟨k', v'⟩ := p
      by_cases hk : k' = k
      · subst hk; simp [alistGet] at h
      · simp [alistGet, hk] at h
        simp [alistSet, alistErase, hk, ih h]

theorem alistGet_append_of_some {κ α : Type} [DecidableEq κ] {m : List (κ × α)} {k : κ}
    {v : α} (h : alistGet m k = some v) (δ : List (κ × α)) :
    alistGet (m ++ δ) k = some v := by
  induction m with
  | nil => simp [alistGet] at h
  | cons p t ih =>
      obtain ⟨k', v'⟩ := p
      by_cases hk : k' = k
      · subst hk
        simp [alistGet] at h ⊢
        exact h
      · simp [alistGet, hk] at h ⊢
        exact ih h

theorem alistGet_append_self {κ α : Type} [DecidableEq κ] {m : List (κ × α)} {k : κ}
    (h : alistGet m k = none) (v : α) : alistGet (m ++ [(k, v)]) k = some v := by
  induction m with
  | nil => simp [alistGet]
  | cons p t ih =>
      obtain ⟨k', v'⟩ := p
      by_cases hk : k' = k
      · subst hk; simp [alistGet] at h
      · simp [alistGet, hk] at h ⊢
        exact ih h

theorem alistGet_none_of_notMem {κ α : Type} [DecidableEq κ] {m : List (κ × α)} {k : κ}
    (h : k ∉ keys m) : alistGet m k = none := by
  induction m with
  | nil => simp [alistGet]
  | cons p t ih =>
      obtain ⟨k', v'⟩ := p
      simp [keys] at h
      have hk : k' ≠ k := fun hh => h.1 hh.symm
      have ht : k ∉ keys t := by simp [keys, h.2]
      simp [alistGet, hk, ih ht]

theorem notMem_of_alistGet_none {κ α : Type} [DecidableEq κ] {m : List (κ × α)} {k : κ}
    (h : alistGet m k = none) : k ∉ keys m := by
  induction m with
  | nil => simp [keys]
  | cons p t ih =>
      obtain ⟨k', v'⟩ := p
      by_cases hk : k' = k
      · subst hk; simp [alistGet] at h
      · simp [alistGet, hk] at h
        simp [keys] at ih ⊢
        exact ⟨fun hh => hk hh.symm, ih h⟩

theorem alistGet_erase_self_of_nodup {κ α : Type} [DecidableEq κ] {m : List (κ × α)}
    (hn : (keys m).Nodup) (k : κ) : alistGet (alistErase m k) k = none := by
  induction m with
  | nil => simp [alistErase, alistGet]
  | cons p t ih =>
      obtain ⟨k', v'⟩ := p
      simp [keys] at hn
      by_cases hk : k' = k
      · subst hk
        simp [alistErase]
        exact alistGet_none_of_notMem (by simpa [keys] using hn.1)
      · simp [alistErase, hk, alistGet, ih hn.2]

theorem modExt_refl (m : List (String × List String)) : modExt m m :=
  ⟨⟨[], by simp⟩, fun _ _ h => h, fun h => h⟩

theorem modExt_trans {m₁ m₂ m₃ : List (String × List String)}
    (h₁ : modExt m₁ m₂) (h₂ : modExt m₂ m₃) : modExt m₁ m₃ := by
  obtain ⟨⟨δ₁, e₁⟩, g₁, n₁⟩ := h₁
  obtain ⟨⟨δ₂, e₂⟩, g₂, n₂⟩ := h₂
  exact ⟨⟨δ₁ ++ δ₂, by simp [e₂, e₁]⟩, fun k v h => g₂ k v (g₁ k v h),
    fun h => n₂ (n₁ h)⟩

theorem modExt_add {m : List (String × List String)} {k : String}
    (h : alistGet m k = none) (v : List String) : modExt m (m ++ [(k, v)]) := by
  refine ⟨⟨[(k, v)], rfl⟩, fun k' v' h' => alistGet_append_of_some h' _, fun hn => ?_⟩
  have : keys (m ++ [(k, v)]) = keys m ++ [k] := by simp [keys]
  rw [this]
  simp [List.nodup_append, hn]
  exact notMem_of_alistGet_none h


theorem Kept_refl (s : CGState) : Kept s s := ⟨rfl, rfl, modExt_refl _⟩

theorem Kept_trans {s₁ s₂ s₃ : CGState} (h₁ : Kept s₁ s₂) (h₂ : Kept s₂ s₃) :
    Kept s₁ s₃ :=
  ⟨h₂.1.trans h₁.1, h₂.2.1.trans h₁.2.1, modExt_trans h₁.2.2 h₂.2.2⟩

/-- Any step that leaves the table, registry and module untouched (all the
pure emission and bookkeeping steps) is `Kept`. -/
theorem Kept_of_fields {s s' : CGState} (h₁ : s'.opPrec = s.opPrec)
    (h₂ : s'.protos = s.protos) (h₃ : s'.mdl = s.mdl) : Kept s s' :=
  ⟨h₁, h₂, h₃ ▸ modExt_refl s.mdl⟩

theorem RegOK_step {s s' : CGState} (h : RegOK s) (hp : s'.protos = s.protos) : RegOK s' := by
  intro k p hk
  rw [hp] at hk
  exact h k p hk

theorem getFunction_spec {s : CGState} (hreg : RegOK s) (name : String) :
    Kept s (getFunction name s).2 ∧ (getFunction name s).2.namedValues = s.namedValues := by
  unfold getFunction
  cases hm : alistGet s.mdl name with
  | some args => exact ⟨Kept_refl s, rfl⟩
  | none =>
      dsimp only
      cases hp : alistGet s.protos name with
      | some p =>
          dsimp only [protoCodegen]
          refine ⟨⟨rfl, rfl, ?_⟩, rfl⟩
          rw [hreg name p hp]
          exact modExt_add hm p.args
      | none => exact ⟨Kept_refl s, rfl⟩

theorem exprOK_num (v : ℚ) : ExprOK (Expr.num v) := by
  intro s r s' h _
  simp only [codegenExpr] at h
  cases h
  exact ⟨Kept_refl s, fun _ => rfl⟩

theorem exprOK_varRef (name : String) : ExprOK (Expr.varRef name) := by
  intro s r s' h _
  simp only [codegenExpr] at h
  split at h
  · cases h
  · simp only [freshReg] at h
    cases h
    exact ⟨Kept_of_fields rfl rfl rfl, fun _ => rfl⟩

theorem exprOK_unary (op : Nat) (operand : Expr) (ih : ExprOK operand) :
    ExprOK (Expr.unary op operand) := by
  intro s r s' h hreg
  simp only [codegenExpr] at h
  split at h
  · cases h
  · rename_i s₁ h₁
    cases h
    exact ⟨(ih _ _ _ h₁ hreg).1, by simp⟩
  · rename_i operandV s₁ h₁
    have k₁ := ih _ _ _ h₁ hreg
    have hreg₁ := RegOK_step hreg k₁.1.2.1
    split at h
    · rename_i s₂ hg
      cases h
      have k₂ := getFunction_spec hreg₁ ("unary".push (Char.ofNat op))
      rw [hg] at k₂
      exact ⟨Kept_trans k₁.1 (Kept_trans k₂.1 (Kept_of_fields rfl rfl rfl)), by simp⟩
    · rename_i fn s₂ hg
      simp only [freshReg] at h
      cases h
      have k₂ := getFunction_spec hreg₁ ("unary".push (Char.ofNat op))
      rw [hg] at k₂
      refine ⟨Kept_trans k₁.1 (Kept_trans k₂.1 (Kept_of_fields rfl rfl rfl)), fun _ => ?_⟩
      show s₂.namedValues = s.namedValues
      rw [k₂.2, k₁.2 rfl]

theorem exprOK_bin (op : Nat) (l r : Expr) (ihl : ExprOK l) (ihr : ExprOK r) :
    ExprOK (Expr.bin op l r) := by
  intro s res s' h hreg
  simp only [codegenExpr] at h
  split at h
  · cases h
  · rename_i left s₁ h₁
    split at h
    · cases h
    · rename_i right s₂ h₂
      have k₁ := ihl _ _ _ h₁ hreg
      have hreg₁ := RegOK_step hreg k₁.1.2.1
      have k₂ := ihr _ _ _ h₂ hreg₁
      have k₁₂ := Kept_trans k₁.1 k₂.1
      split at h
      · rename_i lv rv
        split at h
        · simp only [freshReg] at h
          cases h
          refine ⟨Kept_trans k₁₂ (Kept_of_fields rfl rfl rfl), fun _ => ?_⟩
          show s₂.namedValues = s.namedValues
          rw [k₂.2 rfl, k₁.2 rfl]
        · split at h
          · simp only [freshReg] at h
            cases h
            refine ⟨Kept_trans k₁₂ (Kept_of_fields rfl rfl rfl), fun _ => ?_⟩
            show s₂.namedValues = s.namedValues
            rw [k₂.2 rfl, k₁.2 rfl]
          · split at h
            · simp only [freshReg] at h
              cases h
              refine ⟨Kept_trans k₁₂ (Kept_of_fields rfl rfl rfl), fun _ => ?_⟩
              show s₂.namedValues = s.namedValues
              rw [k₂.2 rfl, k₁.2 rfl]
            · split at h
              · simp only [freshReg] at h
                cases h
                refine ⟨Kept_trans k₁₂ (Kept_of_fields rfl rfl rfl), fun _ => ?_⟩
                show s₂.namedValues = s.namedValues
                rw [k₂.2 rfl, k₁.2 rfl]
              · split at h
                · cases h
                · rename_i fn s₃ hg
                  simp only [freshReg] at h
                  cases h
                  have hreg₂ := RegOK_step hreg k₁₂.2.1
                  have k₃ := getFunction_spec hreg₂ ("binary".push (Char.ofNat op))
                  rw [hg] at k₃
                  refine ⟨Kept_trans k₁₂ (Kept_trans k₃.1 (Kept_of_fields rfl rfl rfl)),
                    fun _ => ?_⟩
                  show s₃.namedValues = s.namedValues
                  rw [k₃.2, k₂.2 rfl, k₁.2 rfl]
      · cases h
        exact ⟨k₁₂, by simp⟩

theorem exprOK_ifE (c t e : Expr) (ihc : ExprOK c) (iht : ExprOK t) (ihe : ExprOK e) :
    ExprOK (Expr.ifE c t e) := by
  intro s res s' h hreg
  simp only [codegenExpr] at h
  split at h
  · cases h
  · rename_i s₁ h₁
    cases h
    exact ⟨(ihc _ _ _ h₁ hreg).1, by simp⟩
  · rename_i condV s₁ h₁
    have k₁ := ihc _ _ _ h₁ hreg
    have hreg₁ := RegOK_step hreg k₁.1.2.1
    split at h
    · cases h
    · rename_i s₅ h₂
      cases h
      have k₂ := iht _ _ _ h₂ (RegOK_step hreg₁ rfl)
      exact ⟨Kept_trans k₁.1 (Kept_trans (Kept_of_fields rfl rfl rfl) k₂.1), by simp⟩
    · rename_i thenV s₅ h₂
      have k₂ := iht _ _ _ h₂ (RegOK_step hreg₁ rfl)
      split at h
      · cases h
      · rename_i s₇ h₃
        cases h
        have k₃ := ihe _ _ _ h₃ (RegOK_step (RegOK_step hreg₁ k₂.1.2.1) rfl)
        exact ⟨Kept_trans k₁.1 (Kept_trans (Kept_of_fields rfl rfl rfl)
          (Kept_trans k₂.1 (Kept_trans (Kept_of_fields rfl rfl rfl) k₃.1))), by simp⟩
      · rename_i elseV s₇ h₃
        have k₃ := ihe _ _ _ h₃ (RegOK_step (RegOK_step hreg₁ k₂.1.2.1) rfl)
        simp only [freshReg] at h
        cases h
        refine ⟨Kept_trans k₁.1 (Kept_trans (Kept_of_fields rfl rfl rfl)
          (Kept_trans k₂.1 (Kept_trans (Kept_of_fields rfl rfl rfl)
          (Kept_trans k₃.1 (Kept_of_fields rfl rfl rfl))))), fun _ => ?_⟩
        show s₇.namedValues = s.namedValues
        rw [k₃.2 rfl]
        show s₅.namedValues = s.namedValues
        rw [k₂.2 rfl]
        show s₁.namedValues = s.namedValues
        exact k₁.2 rfl


theorem exprOK_call (callee : String) (args : List Expr) (iha : ArgsOK args) :
    ExprOK (Expr.call callee args) := by
  intro s r s' h hreg
  simp only [codegenExpr] at h
  split at h
  · rename_i s₁ hg
    cases h
    have k₁ := getFunction_spec hreg callee
    rw [hg] at k₁
    exact ⟨Kept_trans k₁.1 (Kept_of_fields rfl rfl rfl), by simp⟩
  · rename_i fn s₁ hg
    have k₁ := getFunction_spec hreg callee
    rw [hg] at k₁
    split at h
    · cases h
      exact ⟨Kept_trans k₁.1 (Kept_of_fields rfl rfl rfl), by simp⟩
    · split at h
      · cases h
      · rename_i s₂ h₂
        cases h
        have k₂ := iha _ _ _ h₂ (RegOK_step hreg k₁.1.2.1)
        exact ⟨Kept_trans k₁.1 k₂.1, by simp⟩
      · rename_i argVs s₂ h₂
        simp only [freshReg] at h
        cases h
        have k₂ := iha _ _ _ h₂ (RegOK_step hreg k₁.1.2.1)
        refine ⟨Kept_trans k₁.1 (Kept_trans k₂.1 (Kept_of_fields rfl rfl rfl)), fun _ => ?_⟩
        show s₂.namedValues = s.namedValues
        rw [k₂.2 rfl, k₁.2]

theorem argsOK_nil : ArgsOK [] := by
  intro s r s' h _
  simp only [codegenArgs] at h
  cases h
  exact ⟨Kept_refl s, fun _ => rfl⟩

theorem argsOK_cons (e : Expr) (es : List Expr) (ihe : ExprOK e) (ihs : ArgsOK es) :
    ArgsOK (e :: es) := by
  intro s r s' h hreg
  simp only [codegenArgs] at h
  split at h
  · cases h
  · rename_i s₁ h₁
    cases h
    exact ⟨(ihe _ _ _ h₁ hreg).1, by simp⟩
  · rename_i v s₁ h₁
    have k₁ := ihe _ _ _ h₁ hreg
    split at h
    · cases h
    · rename_i s₂ h₂
      cases h
      have k₂ := ihs _ _ _ h₂ (RegOK_step hreg k₁.1.2.1)
      exact ⟨Kept_trans k₁.1 k₂.1, by simp⟩
    · rename_i vs s₂ h₂
      cases h
      have k₂ := ihs _ _ _ h₂ (RegOK_step hreg k₁.1.2.1)
      refine ⟨Kept_trans k₁.1 k₂.1, fun _ => ?_⟩
      rw [k₂.2 rfl, k₁.2 rfl]

theorem stepOK_none : StepOK none := by
  intro s r s' h _
  simp only [codegenStep] at h
  cases h
  exact ⟨Kept_refl s, fun _ => rfl⟩

theorem stepOK_some (e : Expr) (ih : ExprOK e) : StepOK (some e) := by
  intro s r s' h hreg
  simp only [codegenStep] at h
  exact ih _ _ _ h hreg

theorem initOK_none : InitOK none := by
  intro slot s r s' h _
  simp only [codegenInit] at h
  cases h
  exact ⟨Kept_refl s, fun _ => rfl⟩

theorem initOK_some (e : Expr) (ih : ExprOK e) : InitOK (some e) := by
  intro slot s r s' h hreg
  simp only [codegenInit] at h
  split at h
  · cases h
  · rename_i s₁ h₁
    cases h
    exact ⟨(ih _ _ _ h₁ hreg).1, by simp⟩
  · rename_i v s₁ h₁
    cases h
    have k₁ := ih _ _ _ h₁ hreg
    refine ⟨Kept_trans k₁.1 (Kept_of_fields rfl rfl rfl), fun _ => ?_⟩
    show s₁.namedValues = s.namedValues
    exact k₁.2 rfl

theorem restoreSaved_cons (p : String × Option Nat) (saved : List (String × Option Nat))
    (nv : List (String × Nat)) :
    restoreSaved (p :: saved) nv =
      (match p.2 with
      | some old => alistSet (restoreSaved saved nv) p.1 old
      | none => alistErase (restoreSaved saved nv) p.1) := rfl

theorem bindsOK_nil : BindsOK [] := by
  intro s r s' h _
  simp only [lowerVarBindings] at h
  cases h
  refine ⟨Kept_refl s, fun saved hs => ?_⟩
  cases hs
  rfl

theorem bindsOK_cons (name : String) (init : Option Expr)
    (rest : List (String × Option Expr)) (ihi : InitOK init) (ihr : BindsOK rest) :
    BindsOK ((name, init) :: rest) := by
  intro s r s' h hreg
  simp only [lowerVarBindings, entryBlockAlloca] at h
  split at h
  · cases h
  · rename_i s₁ h₁
    cases h
    have k₁ := ihi _ _ _ _ h₁ (RegOK_step hreg rfl)
    exact ⟨Kept_trans (Kept_of_fields rfl rfl rfl) k₁.1,
      fun saved hs => Option.noConfusion hs⟩
  · rename_i u s₁ h₁
    have k₁ := ihi _ _ _ _ h₁ (RegOK_step hreg rfl)
    split at h
    · cases h
    · rename_i s₃ h₂
      cases h
      have k₂ := ihr _ _ _ h₂ (RegOK_step hreg (k₁.1.2.1.trans rfl))
      exact ⟨Kept_trans (Kept_of_fields rfl rfl rfl)
        (Kept_trans k₁.1 (Kept_trans (Kept_of_fields rfl rfl rfl) k₂.1)),
        fun saved hs => Option.noConfusion hs⟩
    · rename_i savedRest s₃ h₂
      cases h
      have k₂ := ihr _ _ _ h₂ (RegOK_step hreg (k₁.1.2.1.trans rfl))
      refine ⟨Kept_trans (Kept_of_fields rfl rfl rfl)
        (Kept_trans k₁.1 (Kept_trans (Kept_of_fields rfl rfl rfl) k₂.1)),
        fun saved hs => ?_⟩
      cases hs
      rw [restoreSaved_cons]
      have hrest := k₂.2 savedRest rfl
      have h₁nv : s₁.namedValues = s.namedValues := k₁.2 rfl
      cases hov : alistGet s.namedValues name with
      | some old =>
          dsimp only
          rw [hrest]
          show alistSet (alistSet s₁.namedValues name _) name old = s.namedValues
          rw [h₁nv]
          exact alistSet_set_cancel hov _
      | none =>
          dsimp only
          rw [hrest]
          show alistErase (alistSet s₁.namedValues name _) name = s.namedValues
          rw [h₁nv]
          exact alistErase_set_cancel hov _


theorem exprOK_varE (binds : List (String × Option Expr)) (body : Expr)
    (ihb : BindsOK binds) (ihbody : ExprOK body) : ExprOK (Expr.varE binds body) := by
  intro s r s' h hreg
  simp only [codegenExpr] at h
  split at h
  · cases h
  · rename_i s₁ h₁
    cases h
    exact ⟨(ihb _ _ _ h₁ hreg).1, by simp⟩
  · rename_i saved s₁ h₁
    have k₁ := ihb _ _ _ h₁ hreg
    split at h
    · cases h
    · rename_i s₂ h₂
      cases h
      have k₂ := ihbody _ _ _ h₂ (RegOK_step hreg k₁.1.2.1)
      exact ⟨Kept_trans k₁.1 k₂.1, by simp⟩
    · rename_i bodyV s₂ h₂
      cases h
      have k₂ := ihbody _ _ _ h₂ (RegOK_step hreg k₁.1.2.1)
      refine ⟨Kept_trans k₁.1 (Kept_trans k₂.1 (Kept_of_fields rfl rfl rfl)), fun _ => ?_⟩
      show restoreSaved saved s₂.namedValues = s.namedValues
      rw [k₂.2 rfl]
      exact k₁.2 saved rfl

set_option maxHeartbeats 2000000 in
theorem exprOK_forE (vn : String) (start stop : Expr) (step : Option Expr) (body : Expr)
    (ihstart : ExprOK start) (ihstop : ExprOK stop) (ihstep : StepOK step)
    (ihbody : ExprOK body) : ExprOK (Expr.forE vn start stop step body) := by
  intro s r s' h hreg
  simp only [codegenExpr, entryBlockAlloca] at h
  split at h
  · cases h
  · rename_i s₁ h₁
    cases h
    have k₁ := ihstart _ _ _ h₁ (RegOK_step hreg rfl)
    exact ⟨Kept_trans (Kept_of_fields rfl rfl rfl) k₁.1, by simp⟩
  · rename_i startV s₁ h₁
    have k₁ := ihstart _ _ _ h₁ (RegOK_step hreg rfl)
    split at h
    · cases h
    · rename_i s₆ h₂
      cases h
      have k₂ := ihbody _ _ _ h₂ (RegOK_step hreg (k₁.1.2.1.trans rfl))
      exact ⟨Kept_trans (Kept_of_fields rfl rfl rfl)
        (Kept_trans k₁.1 (Kept_trans (Kept_of_fields rfl rfl rfl) k₂.1)), by simp⟩
    · rename_i bodyV s₆ h₂
      have k₂ := ihbody _ _ _ h₂ (RegOK_step hreg (k₁.1.2.1.trans rfl))
      split at h
      · cases h
      · rename_i s₇ h₃
        cases h
        have k₃ := ihstep _ _ _ h₃ (RegOK_step hreg ((k₂.1.2.1.trans k₁.1.2.1).trans rfl))
        exact ⟨Kept_trans (Kept_of_fields rfl rfl rfl)
          (Kept_trans k₁.1 (Kept_trans (Kept_of_fields rfl rfl rfl)
          (Kept_trans k₂.1 k₃.1))), by simp⟩
      · rename_i stepV s₇ h₃
        have k₃ := ihstep _ _ _ h₃ (RegOK_step hreg ((k₂.1.2.1.trans k₁.1.2.1).trans rfl))
        split at h
        · cases h
        · rename_i s₈ h₄
          cases h
          have k₄ := ihstop _ _ _ h₄
            (RegOK_step hreg (((k₃.1.2.1.trans k₂.1.2.1).trans k₁.1.2.1).trans rfl))
          exact ⟨Kept_trans (Kept_of_fields rfl rfl rfl)
            (Kept_trans k₁.1 (Kept_trans (Kept_of_fields rfl rfl rfl)
            (Kept_trans k₂.1 (Kept_trans k₃.1 k₄.1)))), by simp⟩
        · rename_i endV s₈ h₄
          have k₄ := ihstop _ _ _ h₄
            (RegOK_step hreg (((k₃.1.2.1.trans k₂.1.2.1).trans k₁.1.2.1).trans rfl))
          simp only [freshReg] at h
          split at h
          · rename_i old hov
            cases h
            refine ⟨Kept_trans (Kept_of_fields rfl rfl rfl)
              (Kept_trans k₁.1 (Kept_trans (Kept_of_fields rfl rfl rfl)
              (Kept_trans k₂.1 (Kept_trans k₃.1 (Kept_trans k₄.1
              (Kept_of_fields rfl rfl rfl)))))), fun _ => ?_⟩
            show alistSet s₈.namedValues vn old = s.namedValues
            rw [k₄.2 rfl, k₃.2 rfl, k₂.2 rfl]
            show alistSet (alistSet s₁.namedValues vn _) vn old = s.namedValues
            have h₁nv : s₁.namedValues = s.namedValues := k₁.2 rfl
            have hov' : alistGet s₁.namedValues vn = some old := hov
            rw [h₁nv]
            rw [h₁nv] at hov'
            exact alistSet_set_cancel hov' _
          · rename_i hov
            cases h
            refine ⟨Kept_trans (Kept_of_fields rfl rfl rfl)
              (Kept_trans k₁.1 (Kept_trans (Kept_of_fields rfl rfl rfl)
              (Kept_trans k₂.1 (Kept_trans k₃.1 (Kept_trans k₄.1
              (Kept_of_fields rfl rfl rfl)))))), fun _ => ?_⟩
            show alistErase s₈.namedValues vn = s.namedValues
            rw [k₄.2 rfl, k₃.2 rfl, k₂.2 rfl]
            show alistErase (alistSet s₁.namedValues vn _) vn = s.namedValues
            have h₁nv : s₁.namedValues = s.namedValues := k₁.2 rfl
            have hov' : alistGet s₁.namedValues vn = none := hov
            rw [h₁nv]
            rw [h₁nv] at hov'
            exact alistErase_set_cancel hov' _


theorem cgInvAll : ∀ n : Nat,
    (∀ e : Expr, sizeOf e ≤ n → ExprOK e) ∧
    (∀ es : List Expr, sizeOf es ≤ n → ArgsOK es) ∧
    (∀ bs : List (String × Option Expr), sizeOf bs ≤ n → BindsOK bs) ∧
    (∀ st : Option Expr, sizeOf st ≤ n → StepOK st) ∧
    (∀ ini : Option Expr, sizeOf ini ≤ n → InitOK ini) := by
  intro n
  induction n with
  | zero =>
      refine ⟨fun e he => absurd he ?_, fun es he => absurd he ?_,
        fun bs he => absurd he ?_, fun st he => absurd he ?_, fun ini he => absurd he ?_⟩
      · cases e <;> simp_arith
      · cases es <;> simp_arith
      · cases bs <;> simp_arith
      · cases st <;> simp_arith
      · cases ini <;> simp_arith
  | succ n ih =>
      obtain ⟨ihE, ihA, ihB, ihS, ihI⟩ := ih
      refine ⟨?_, ?_, ?_, ?_, ?_⟩
      · intro e he
        cases e with
        | num v => exact exprOK_num v
        | varRef name => exact exprOK_varRef name
        | unary op operand =>
            simp_arith at he
            exact exprOK_unary op operand (ihE operand (by omega))
        | bin op l r =>
            simp_arith at he
            exact exprOK_bin op l r (ihE l (by omega)) (ihE r (by omega))
        | call callee args =>
            simp_arith at he
            exact exprOK_call callee args (ihA args (by omega))
        | ifE c t e =>
            simp_arith at he
            exact exprOK_ifE c t e (ihE c (by omega)) (ihE t (by omega)) (ihE e (by omega))
        | forE vn start stop step body =>
            simp_arith at he
            exact exprOK_forE vn start stop step body (ihE start (by omega))
              (ihE stop (by omega)) (ihS step (by omega)) (ihE body (by omega))
        | varE binds body =>
            simp_arith at he
            exact exprOK_varE binds body (ihB binds (by omega)) (ihE body (by omega))
      · intro es he
        cases es with
        | nil => exact argsOK_nil
        | cons e rest =>
            simp_arith at he
            exact argsOK_cons e rest (ihE e (by omega)) (ihA rest (by omega))
      · intro bs he
        cases bs with
        | nil => exact bindsOK_nil
        | cons b rest =>
            obtain ⟨name, init⟩ := b
            simp_arith at he
            exact bindsOK_cons name init rest (ihI init (by omega)) (ihB rest (by omega))
      · intro st he
        cases st with
        | none => exact stepOK_none
        | some e =>
            simp_arith at he
            exact stepOK_some e (ihE e (by omega))
      · intro ini he
        cases ini with
        | none => exact initOK_none
        | some e =>
            simp_arith at he
            exact initOK_some e (ihE e (by omega))

/-- Lowering any expression never touches the operator table or the
prototype registry, and only extends the module. -/
theorem codegenExpr_Kept {e : Expr} {s : CGState} {r : Option Value} {s' : CGState}
    (h : codegenExpr e s = CRes.ok r s') (hreg : RegOK s) : Kept s s' :=
  ((cgInvAll (sizeOf e)).1 e le_rfl s r s' h hreg).1

/-- Scope-map restoration: whenever the lowering of an expression succeeds,
the scope map afterwards is exactly the scope map before — every binding
shadowed by a nested `var`/`for` block has been restored (or removed). -/
theorem codegenExpr_namedValues {e : Expr} {s : CGState} {v : Value} {s' : CGState}
    (h : codegenExpr e s = CRes.ok (some v) s') (hreg : RegOK s) :
    s'.namedValues = s.namedValues :=
  ((cgInvAll (sizeOf e)).1 e le_rfl s (some v) s' h hreg).2 rfl


theorem alistGet_set {κ α : Type} [DecidableEq κ] (m : List (κ × α)) (k : κ) (v : α)
    (k' : κ) :
    alistGet (alistSet m k v) k' = if k = k' then some v else alistGet m k' := by
  induction m with
  | nil => simp [alistSet, alistGet]
  | cons p t ih =>
      obtain ⟨k₀, v₀⟩ := p
      by_cases hk : k₀ = k
      · subst hk
        by_cases hk' : k₀ = k'
        · subst hk'; simp [alistSet, alistGet]
        · simp [alistSet, alistGet, hk']
      · by_cases hk' : k₀ = k'
        · subst hk'
          have : ¬ k = k₀ := fun hh => hk hh.symm
          simp [alistSet, alistGet, hk, this]
        · simp [alistSet, alistGet, hk, hk', ih]

/-- Registering a prototype under its own name keeps the registry
well-formed. -/
theorem RegOK_register {s : CGState} (hreg : RegOK s) (p : Proto) :
    RegOK { s with protos := alistSet s.protos p.name p } := by
  intro k q hq
  show q.name = k
  have := alistGet_set s.protos p.name p k
  rw [this] at hq
  by_cases hk : p.name = k
  · rw [if_pos hk] at hq
    cases hq
    exact hk
  · rw [if_neg hk] at hq
    exact hreg k q hq

/-- Resolving a name right after its prototype was registered under that
name always succeeds and yields a function keyed by that name, present in
the module afterwards. -/
theorem getFunction_after_reg (proto : Proto) (s₀ : CGState)
    (hp : alistGet s₀.protos proto.name = some proto) :
    ∃ fn s₁, getFunction proto.name s₀ = (some fn, s₁) ∧ fn.1 = proto.name ∧
      alistGet s₁.mdl proto.name = some fn.2 ∧ Kept s₀ s₁ ∧
      s₁.namedValues = s₀.namedValues ∧
      ((keys s₀.mdl).Nodup → (keys s₁.mdl).Nodup) := by
  unfold getFunction
  cases hm : alistGet s₀.mdl proto.name with
  | some args =>
      exact ⟨(proto.name, args), s₀, rfl, rfl, hm, Kept_refl s₀, rfl, fun h => h⟩
  | none =>
      dsimp only
      rw [hp]
      dsimp only [protoCodegen]
      refine ⟨(proto.name, proto.args), _, rfl, rfl, ?_, ⟨rfl, rfl, modExt_add hm _⟩,
        rfl, ?_⟩
      · exact alistGet_append_self hm proto.args
      · intro h
        exact (modExt_add hm proto.args).2.2 h

theorem allocArgs_opPrec (args : List String) (i : Nat) (s : CGState) :
    (allocArgs args i s).opPrec = s.opPrec := by
  induction args generalizing i s with
  | nil => rfl
  | cons a rest ih => simp only [allocArgs, entryBlockAlloca]; rw [ih]; exact rfl

theorem allocArgs_protos (args : List String) (i : Nat) (s : CGState) :
    (allocArgs args i s).protos = s.protos := by
  induction args generalizing i s with
  | nil => rfl
  | cons a rest ih => simp only [allocArgs, entryBlockAlloca]; rw [ih]; exact rfl

theorem allocArgs_mdl (args : List String) (i : Nat) (s : CGState) :
    (allocArgs args i s).mdl = s.mdl := by
  induction args generalizing i s with
  | nil => rfl
  | cons a rest ih => simp only [allocArgs, entryBlockAlloca]; rw [ih]; exact rfl

/-- The operator-table effect of `FunctionAST::codegen` on a binary-operator
definition: the declared precedence is installed right after the prototype
resolves — before the body is lowered — so the final table carries it no
matter whether the body lowering succeeded or failed. -/
theorem codegenFunction_opPrec {proto : Proto} {body : Expr} {s : CGState}
    {r : Option Fn} {s' : CGState} (hbin : proto.isBinaryOp = true) (hreg : RegOK s)
    (h : codegenFunction proto body s = CRes.ok r s') :
    s'.opPrec = alistSet s.opPrec proto.opName proto.precedence := by
  unfold codegenFunction at h
  dsimp only at h
  obtain ⟨fn, s₁, hg, hfn, hmem, hkept, hnv, hnodup⟩ :=
    getFunction_after_reg proto { s with protos := alistSet s.protos proto.name proto }
      (by rw [alistGet_set]; simp)
  rw [hg] at h
  dsimp only at h
  rw [if_pos hbin] at h
  split at h
  · cases h
  · rename_i s₆ hb
    cases h
    have kb := codegenExpr_Kept hb (by
      exact RegOK_step (RegOK_register hreg proto)
        (by rw [allocArgs_protos]; exact hkept.2.1))
    show s₆.opPrec = _
    rw [kb.1, allocArgs_opPrec]
    show alistSet s₁.opPrec proto.opName proto.precedence = _
    rw [hkept.1]
  · rename_i retV s₆ hb
    cases h
    have kb := codegenExpr_Kept hb (by
      exact RegOK_step (RegOK_register hreg proto)
        (by rw [allocArgs_protos]; exact hkept.2.1))
    show s₆.opPrec = _
    rw [kb.1, allocArgs_opPrec]
    show alistSet s₁.opPrec proto.opName proto.precedence = _
    rw [hkept.1]

/-- The failure path of `FunctionAST::codegen`: when the body fails to
lower, the function is erased from the module while the registry entry
installed at entry stays. -/
theorem codegenFunction_failure {proto : Proto} {body : Expr} {s : CGState}
    {s' : CGState} (hreg : RegOK s) (hnd : (keys s.mdl).Nodup)
    (h : codegenFunction proto body s = CRes.ok none s') :
    alistGet s'.mdl proto.name = none ∧ alistGet s'.protos proto.name = some proto := by
  unfold codegenFunction at h
  dsimp only at h
  obtain ⟨fn, s₁, hg, hfn, hmem, hkept, hnv, hnodup⟩ :=
    getFunction_after_reg proto { s with protos := alistSet s.protos proto.name proto }
      (by rw [alistGet_set]; simp)
  rw [hg] at h
  dsimp only at h
  cases hbin : proto.isBinaryOp with
  | true =>
      rw [if_pos hbin] at h
      split at h
      · cases h
      · rename_i s₆ hb
        cases h
        have kb := codegenExpr_Kept hb (by
          exact RegOK_step (RegOK_register hreg proto)
            (by rw [allocArgs_protos]; exact hkept.2.1))
        constructor
        · show alistGet (alistErase s₆.mdl proto.name) proto.name = none
          apply alistGet_erase_self_of_nodup
          have h₅ : (keys s₁.mdl).Nodup := hnodup (by exact hnd)
          have hmono := kb.2.2.2.2
          rw [allocArgs_mdl] at hmono
          exact hmono h₅
        · show alistGet s₆.protos proto.name = some proto
          have hp := kb.2.1
          rw [allocArgs_protos] at hp
          rw [hp]
          show alistGet s₁.protos proto.name = some proto
          rw [hkept.2.1]
          show alistGet (alistSet s.protos proto.name proto) proto.name = some proto
          exact alistGet_set_self _ _ _
      · cases h
  | false =>
      rw [if_neg (by simp [hbin])] at h
      split at h
      · cases h
      · rename_i s₆ hb
        cases h
        have kb := codegenExpr_Kept hb (by
          exact RegOK_step (RegOK_register hreg proto)
            (by rw [allocArgs_protos]; exact hkept.2.1))
        constructor
        · show alistGet (alistErase s₆.mdl proto.name) proto.name = none
          apply alistGet_erase_self_of_nodup
          have h₅ : (keys s₁.mdl).Nodup := hnodup (by exact hnd)
          have hmono := kb.2.2.2.2
          rw [allocArgs_mdl] at hmono
          exact hmono h₅
        · show alistGet s₆.protos proto.name = some proto
          have hp := kb.2.1
          rw [allocArgs_protos] at hp
          rw [hp]
          show alistGet s₁.protos proto.name = some proto
          rw [hkept.2.1]
          show alistGet (alistSet s.protos proto.name proto) proto.name = some proto
          exact alistGet_set_self _ _ _
      · cases h


theorem RegOK_startup : RegOK startupState := fun _ _ h => Option.noConfusion h

theorem nodup_startup : (keys startupState.mdl).Nodup := List.nodup_nil

/-!  ## The claims -/

/-- Claim C1 (evaluation of the code at the failing input): equal-precedence
operators do associate left (`1-2-3` parses as `(1-2)-3`), but the nested
climb recurses at `minPrecedence + 1` rather than the claimed
`currentPrecedence + 1`: on `1+2*3<4` the parser produces
`1+((2*3)<4)` where the claimed algorithm produces `(1+(2*3))<4`. -/
theorem claim_C1 :
    (ParseExpr 32 builtinTable toksMinus).1 =
      some (bin 45 (bin 45 (num 1) (num 2)) (num 3)) ∧
    (ParseExpr 32 builtinTable toksMixed).1 =
      some (bin 43 (num 1) (bin 60 (bin 42 (num 2) (num 3)) (num 4))) ∧
    (SpecParseExpr 32 builtinTable toksMixed).1 =
      some (bin 60 (bin 43 (num 1) (bin 42 (num 2) (num 3))) (num 4)) :=
  ⟨rfl, rfl, rfl⟩

/-- Claim C2: lowering a var/in expression allocates one slot per binding in
order and shadows the scope map immediately (the `var a = 1, b = 2 in 3`
trace); the shadowing example `var x = 1 in (var x = 2 in x) + x` lowers
successfully and its straight-line trace evaluates to 3, the inner load
reading the inner slot and the outer load reading the restored outer slot;
and every successful lowering restores the scope map exactly. -/
theorem claim_C2 :
    (shadowLower.val.isSome = true ∧
     shadowLower.st.instrs =
       [Instr.label "entry", Instr.alloca 0 "x", Instr.store (Value.constF 1) 0,
        Instr.alloca 1 "x", Instr.store (Value.constF 2) 1, Instr.load 0 1,
        Instr.load 1 0, Instr.fadd 2 (Value.reg 0) (Value.reg 1),
        Instr.ret (Value.reg 2)] ∧
     evalTrace shadowLower.st.instrs [] [] = some 3) ∧
    (varOrder.val = some (Value.constF 3) ∧
     varOrder.st.instrs =
       [Instr.alloca 0 "a", Instr.store (Value.constF 1) 0,
        Instr.alloca 1 "b", Instr.store (Value.constF 2) 1] ∧
     varOrder.st.namedValues = []) ∧
    (∀ (e : Expr) (s : CGState) (v : Value) (s' : CGState),
       codegenExpr e s = CRes.ok (some v) s' → RegOK s →
       s'.namedValues = s.namedValues) := by
  refine ⟨⟨rfl, rfl, ?_⟩, ⟨rfl, rfl, rfl⟩,
    fun e s v s' h hreg => codegenExpr_namedValues h hreg⟩
  show some ((2 : ℚ) + 1) = some 3
  norm_num

theorem claim_C2_app :
    codegenExpr (num 5) startupState = CRes.ok (some (Value.constF 5)) startupState ∧
    startupState.namedValues = startupState.namedValues :=
  ⟨rfl, claim_C2.2.2 (num 5) startupState (Value.constF 5) startupState rfl RegOK_startup⟩

/-- Claim C3 (evaluation of the code at the failing input): lowering a
Variable node whose name is not in the scope map emits the diagnostic, but
then falls through and calls `CreateLoad` on the null storage pointer
instead of returning the failure value — the `return` before `LogErrorV` is
missing in `VariableExprAST::codegen`. -/
theorem claim_C3 :
    codegenExpr (varRef "x") startupState =
      CRes.crash "CreateLoad on null storage location"
        (logErrorV "Unknown variable name." startupState) ∧
    (logErrorV "Unknown variable name." startupState).diags =
      ["Unknown variable name."] :=
  ⟨rfl, rfl⟩

/-- Claim C4, counterexample: when the body of a for/in fails to lower, the
shadowed binding of the induction variable is NOT removed — after the
failing lowering the scope map still maps `i` to the loop's slot, although
`i` was unbound before. -/
theorem claim_C4_cx :
    forLeak.val = none ∧ forLeak.isCrash = false ∧
    alistGet startupState.namedValues "i" = none ∧
    alistGet forLeak.st.namedValues "i" = some 0 :=
  ⟨rfl, rfl, rfl, rfl⟩

/-- Claim C4 (amended): the shadowed binding of the loop induction variable
is restored (or the name removed) on the successful exit path; on the
early-failure exits (body, step or end condition failing to lower) it is
not restored — the loop variable stays bound to the loop's storage slot. -/
theorem claim_C4 :
    (∀ (vn : String) (start stop : Expr) (step : Option Expr) (body : Expr)
       (s : CGState) (v : Value) (s' : CGState),
       codegenExpr (Expr.forE vn start stop step body) s = CRes.ok (some v) s' →
       RegOK s → s'.namedValues = s.namedValues) ∧
    (forLeak.val = none ∧ alistGet forLeak.st.namedValues "i" = some 0) :=
  ⟨fun _ _ _ _ _ _ _ _ h hreg => codegenExpr_namedValues h hreg, rfl, rfl⟩

theorem claim_C4_app :
    codegenExpr (forE "i" (num 1) (num 2) none (num 3)) startupState =
      CRes.ok (some (Value.constF 0)) forOK.st ∧
    forOK.st.namedValues = startupState.namedValues :=
  ⟨rfl, claim_C4.1 "i" (num 1) (num 2) none (num 3) startupState (Value.constF 0)
    forOK.st rfl RegOK_startup⟩

/-- Claim C5, counterexample: a binary-operator definition whose body fails
to lower nevertheless installs its precedence: `|` is absent from the
startup table, the definition fails, and afterwards the table maps `|`
to 30. -/
theorem claim_C5_cx :
    failingDef.val = none ∧
    alistGet startupState.opPrec 124 = none ∧
    alistGet failingDef.st.opPrec 124 = some 30 :=
  ⟨rfl, rfl, rfl⟩

/-- Claim C5 (amended): lowering a binary-operator function definition
installs the declared precedence right after the prototype resolves and
before the body is lowered, so the final table carries the entry whether
the body lowering succeeded or failed; a failing body does not roll the
entry back. -/
theorem claim_C5 :
    ∀ (proto : Proto) (body : Expr) (s : CGState) (r : Option Fn) (s' : CGState),
      proto.isBinaryOp = true → RegOK s →
      codegenFunction proto body s = CRes.ok r s' →
      s'.opPrec = alistSet s.opPrec proto.opName proto.precedence :=
  fun _ _ _ _ _ hbin hreg h => codegenFunction_opPrec hbin hreg h

theorem claim_C5_app :
    protoBar.isBinaryOp = true ∧
    failingDef.st.opPrec = alistSet startupState.opPrec protoBar.opName protoBar.precedence :=
  ⟨rfl, claim_C5 protoBar (call "nosuch" []) startupState none failingDef.st rfl
    RegOK_startup rfl⟩

/-- Claim C6: when a function definition body fails to lower, the partially
built function is erased from the module (no function under that name is
left behind) while the prototype-registry entry registered on entry stays
in place. -/
theorem claim_C6 :
    ∀ (proto : Proto) (body : Expr) (s s' : CGState),
      RegOK s → (keys s.mdl).Nodup →
      codegenFunction proto body s = CRes.ok none s' →
      alistGet s'.mdl proto.name = none ∧ alistGet s'.protos proto.name = some proto :=
  fun _ _ _ _ hreg hnd h => codegenFunction_failure hreg hnd h

theorem claim_C6_app :
    alistGet failingDef.st.mdl "binary|" = none ∧
    alistGet failingDef.st.protos "binary|" = some protoBar :=
  claim_C6 protoBar (call "nosuch" []) startupState failingDef.st RegOK_startup
    nodup_startup rfl

/-- Claim C7, counterexample: an unresolvable unary operator is NOT an
assertion failure — the lowering emits the "Unknown unary operator"
diagnostic and returns the recoverable failure value, while the binary
case is the assertion. -/
theorem claim_C7_cx :
    unaryMissing.isCrash = false ∧ unaryMissing.val = none ∧
    unaryMissing.st.diags = ["Unknown unary operator"] ∧
    binMissing.isCrash = true :=
  ⟨rfl, rfl, rfl, rfl⟩

/-- Claim C7 (amended): an unresolvable non-built-in binary operator is an
unchecked assertion (`assert(function && "binary operator not found!")`),
but an unresolvable unary operator is a reported, recoverable diagnostic. -/
theorem claim_C7 :
    (∀ (s : CGState) (c : Nat) (v : ℚ),
       alistGet s.mdl ("unary".push (Char.ofNat c)) = none →
       alistGet s.protos ("unary".push (Char.ofNat c)) = none →
       codegenExpr (unary c (num v)) s =
         CRes.ok none (logErrorV "Unknown unary operator" s)) ∧
    (∀ (s : CGState) (c : Nat) (v w : ℚ),
       c ≠ 43 → c ≠ 45 → c ≠ 42 → c ≠ 60 →
       alistGet s.mdl ("binary".push (Char.ofNat c)) = none →
       alistGet s.protos ("binary".push (Char.ofNat c)) = none →
       codegenExpr (bin c (num v) (num w)) s =
         CRes.crash "binary operator not found!" s) := by
  constructor
  · intro s c v h1 h2
    simp only [codegenExpr, getFunction, h1, h2]
  · intro s c v w h43 h45 h42 h60 h1 h2
    simp only [codegenExpr, getFunction, h1, h2, h43, h45, h42, h60]
    simp

theorem claim_C7_app :
    codegenExpr (unary 33 (num 1)) startupState =
      CRes.ok none (logErrorV "Unknown unary operator" startupState) ∧
    codegenExpr (bin 124 (num 1) (num 2)) startupState =
      CRes.crash "binary operator not found!" startupState :=
  ⟨claim_C7.1 startupState 33 1 rfl rfl,
   claim_C7.2 startupState 124 1 2 (by decide) (by decide) (by decide) (by decide)
     rfl rfl⟩

/-- Claim C8, counterexample: redefining `f` (already defined with a body)
succeeds — the second definition's lowering returns a function and emits no
diagnostic at all, contradicting the claimed redefinition failure. -/
theorem claim_C8_cx :
    (defFst 1).val.isSome = true ∧ (defSnd 1 2).val.isSome = true ∧
    (defSnd 1 2).st.diags = [] :=
  ⟨rfl, rfl, rfl⟩

/-- Claim C8 (amended): there is no redefinition check — lowering a second
definition with a body for an already-defined name succeeds, the second
body IS lowered (the emitted unit returns it), no diagnostic is emitted,
and the registry entry is simply overwritten (the driver gives every
definition a fresh module). -/
theorem claim_C8 :
    ∀ v₁ v₂ : ℚ,
      (defFst v₁).val = some ("f", []) ∧
      (defSnd v₁ v₂).val = some ("f", []) ∧
      (defSnd v₁ v₂).st.diags = [] ∧
      (defSnd v₁ v₂).st.instrs = [Instr.label "entry", Instr.ret (Value.constF v₂)] ∧
      alistGet (defSnd v₁ v₂).st.protos "f" = some protoF :=
  fun _ _ => ⟨rfl, rfl, rfl, rfl, rfl⟩

/-- Claim C9: whenever the lowering of a for/in expression succeeds, the
value it produces is the constant 0.0, independently of the start, end,
step and body expressions. -/
theorem claim_C9 :
    ∀ (vn : String) (start stop : Expr) (step : Option Expr) (body : Expr)
      (s : CGState) (v : Value) (s' : CGState),
      codegenExpr (Expr.forE vn start stop step body) s = CRes.ok (some v) s' →
      v = Value.constF 0 := by
  intro vn start stop step body s v s' h
  simp only [codegenExpr, entryBlockAlloca] at h
  split at h
  · cases h
  · cases h
  · split at h
    · cases h
    · cases h
    · split at h
      · cases h
      · cases h
      · split at h
        · cases h
        · cases h
        · simp only [freshReg] at h
          split at h
          · cases h
            rfl
          · cases h
            rfl

theorem claim_C9_app :
    codegenExpr (forE "i" (num 1) (num 2) none (num 3)) startupState =
      CRes.ok (some (Value.constF 0)) forOK.st ∧
    Value.constF 0 = Value.constF 0 :=
  ⟨rfl, claim_C9 "i" (num 1) (num 2) none (num 3) startupState (Value.constF 0)
    forOK.st rfl⟩

/-- Claim C10: parsing `binary | (a b)` with the precedence literal omitted
yields a prototype whose declared binary precedence is 30, and lowering a
definition with that prototype successfully leaves the operator table
mapping `|` to 30. -/
theorem claim_C10 :
    ((ParsePrototype protoToksDefault).1 = some protoBar ∧
     (ParsePrototype protoToksDefault).2 = []) ∧
    (∀ (body : Expr) (s : CGState) (fn : Fn) (s' : CGState),
       RegOK s → codegenFunction protoBar body s = CRes.ok (some fn) s' →
       alistGet s'.opPrec 124 = some 30) := by
  refine ⟨⟨rfl, rfl⟩, fun body s fn s' hreg h => ?_⟩
  have := codegenFunction_opPrec (by exact rfl) hreg h
  rw [this, alistGet_set]
  rfl

theorem claim_C10_app :
    codegenFunction protoBar (num 1) startupState =
      CRes.ok (some ("binary|", ["a", "b"])) okBarDef.st ∧
    alistGet okBarDef.st.opPrec 124 = some 30 :=
  ⟨rfl, claim_C10.2 (num 1) startupState ("binary|", ["a", "b"]) okBarDef.st
    RegOK_startup rfl⟩

end Kaleidoscope
